import Mathlib

/-!
Verification of the stb_cli_bw_converter pipeline (src/main.cpp).

The development shallowly embeds the three components of the program:

* `BlackAndWhiteProcessor::ProcessImage` — the multithreaded grayscale
  transform — as `processImage`.  The worker lambda `processPixel` becomes
  `chunkLoop`; the thread-spawning loop becomes `runChunks`.  Since every
  worker writes a disjoint pre-computed slice of the output and never reads
  it, sequential composition of the chunks is an exact model of the
  fork-join execution.  The hardware-concurrency value is a parameter
  `nThreads`.  C++ undefined behaviour (division by zero, an out-of-bounds
  vector access, a non-terminating loop) is modelled as `none`.
* `ImageConverter::GetFileExtension` as `getFileExtension` (with
  `std::string::find_last_of` as `findLastDot` and `::tolower` as
  `toLowerAscii`).
* `ImageConverter::SaveImage` together with the `SaveFile` strategy classes
  as `saveImage`; an invocation of an `stbi_write_*` routine is reified as a
  `StbWriteCall` value.
* `ImageConverter::ConvertImage` as `convertImage`, with the external
  decoder (`stbi_load`) abstracted as an `Option` argument.

Pixel samples are natural numbers; the `static_cast<unsigned char>` in the
source is the explicit `% 256`.
-/

namespace BWConv

/-- One pixel of the worker lambda `processPixel` in
`BlackAndWhiteProcessor::ProcessImage`: the sum `grayScale` of the
`channels` consecutive samples `img[i..i+channels)`, divided by `channels`
(C++ integer division), then `static_cast<unsigned char>` (`% 256`).
Here `p` is the flattened pixel index, so the byte index is
`i = p * channels`. -/
def pixelGray (img : List Nat) (channels p : Nat) : Nat :=
  (((img.drop (p * channels)).take channels).sum / channels) % 256

/-- Structural-recursion engine for `chunkLoop`.  `fuel` only bounds the
number of iterations (the loop advances `i` by `channels ≥ 1` per step, so
any `fuel ≥ stop - i` is enough); it never changes the computed value. -/
def chunkLoopAux (img : List Nat) (channels stop : Nat) (fuel i : Nat)
    (out : List Nat) : Option (List Nat) :=
  if i < stop then
    if 0 < channels then
      if i + channels ≤ img.length ∧ i / channels < out.length then
        match fuel with
        | 0 => none
        | fuel' + 1 =>
          chunkLoopAux img channels stop fuel' (i + channels)
            (out.set (i / channels)
              ((((img.drop i).take channels).sum / channels) % 256))
      else none
    else none
  else some out

/-- The loop body of the worker lambda `processPixel(start, end)`:
`for (int i = start; i < end; i += channels)` summing `img[i+j]` for
`j < channels`, dividing by `channels` and storing at `outputImage[i / channels]`.
Returns `none` on C++ undefined behaviour: `channels = 0` inside the loop
(`grayScale /= channels` divides by zero and `i` never advances), or an
out-of-bounds access to `img` or `outputImage`. -/
def chunkLoop (img : List Nat) (channels stop : Nat) (i : Nat) (out : List Nat) :
    Option (List Nat) :=
  chunkLoopAux img channels stop (stop - i) i out

/-- Byte offset `start = i * chunkSize * channels` of chunk `i`
(`ProcessImage`, line 208). -/
def chunkStart (chunkSize channels i : Nat) : Nat :=
  i * chunkSize * channels

/-- Byte offset `end` of chunk `i`
(`end = (i == nThreads - 1) ? pixels * channels : (i + 1) * chunkSize * channels`,
`ProcessImage`, line 209). -/
def chunkEnd (pixels channels chunkSize nThreads i : Nat) : Nat :=
  if i = nThreads - 1 then pixels * channels else (i + 1) * chunkSize * channels

/-- Structural-recursion engine for `runChunks`; `fuel ≥ nThreads - i`
bounds the number of chunks still to run. -/
def runChunksAux (img : List Nat) (channels pixels chunkSize nThreads : Nat)
    (fuel i : Nat) (out : List Nat) : Option (List Nat) :=
  if i < nThreads then
    match chunkLoop img channels (chunkEnd pixels channels chunkSize nThreads i)
        (chunkStart chunkSize channels i) out with
    | some out₁ =>
      match fuel with
      | 0 => none
      | fuel' + 1 => runChunksAux img channels pixels chunkSize nThreads fuel' (i + 1) out₁
    | none => none
  else some out

/-- The thread-spawning loop of `ProcessImage`: chunk `i` runs the worker
lambda on `[chunkStart i, chunkEnd i)`.  The workers touch pairwise disjoint
slices of `out`, so running them in sequence is an exact model of the
fork-join execution. -/
def runChunks (img : List Nat) (channels pixels chunkSize nThreads : Nat)
    (i : Nat) (out : List Nat) : Option (List Nat) :=
  runChunksAux img channels pixels chunkSize nThreads (nThreads - i) i out

/-- `BlackAndWhiteProcessor::ProcessImage` with the value of
`std::thread::hardware_concurrency()` passed in as `nThreads`.
`outputImage` is value-initialised to `width * height` zeros.
`chunkSize = pixels / nThreads` is a division by zero when `nThreads = 0`
(undefined behaviour, modelled as `none`). -/
def processImage (img : List Nat) (width height channels nThreads : Nat) :
    Option (List Nat) :=
  if nThreads = 0 then none
  else
    runChunks img channels (width * height) (width * height / nThreads) nThreads 0
      (List.replicate (width * height) 0)

/-- The reference grayscale result: one `pixelGray` sample per pixel. -/
def grayList (img : List Nat) (width height channels : Nat) : List Nat :=
  (List.range (width * height)).map (pixelGray img channels)

/-- First output slot still untouched after the chunks below `i` have run:
chunks `0, …, i-1` cover exactly the pixel slots `[0, i * chunkSize)`. -/
def lowBound (pixels chunkSize nThreads i : Nat) : Nat :=
  if i < nThreads then i * chunkSize else pixels

/-- The value `::tolower` gives on an ASCII character (the program only ever
feeds it path characters): letters `A`–`Z` map to `a`–`z`. -/
def toLowerAscii (ch : Char) : Char :=
  if 'A' ≤ ch ∧ ch ≤ 'Z' then Char.ofNat (ch.toNat + 32) else ch

/-- `fileName.find_last_of('.')` in `ImageConverter::GetFileExtension`:
the index of the last `'.'` in the string, or `none` for `std::string::npos`. -/
def findLastDot : List Char → Option Nat
  | [] => none
  | ch :: rest =>
    match findLastDot rest with
    | some i => some (i + 1)
    | none => if ch = '.' then some 0 else none

/-- Error taxonomy of the converter, one constructor per `throw` site. -/
inductive ConvError where
  | decodeError        -- "Error loading image"
  | extensionError     -- "An error was encountered while finding the file extension."
  | unsupportedFormat  -- "Unsupported image format"
deriving DecidableEq

/-- `ImageConverter::GetFileExtension`: `substr(dotPos + 1)` lowercased, or a
`std::runtime_error` when the path has no dot. -/
def getFileExtension (fileName : List Char) : Except ConvError (List Char) :=
  match findLastDot fileName with
  | none => .error .extensionError
  | some dotPos => .ok ((fileName.drop (dotPos + 1)).map toLowerAscii)

/-- A call into the stb_image_write library, reifying which routine the
`SaveFile` strategy classes invoke and with which arguments. -/
inductive StbWriteCall where
  | png (path : List Char) (w h comp : Nat) (data : List Nat) (strideInBytes : Nat)
  | jpg (path : List Char) (w h comp : Nat) (data : List Nat) (quality : Nat)
  | bmp (path : List Char) (w h comp : Nat) (data : List Nat)
  | tga (path : List Char) (w h comp : Nat) (data : List Nat)
deriving DecidableEq

/-- The `comp` (channel count) argument a strategy hands to stb_image_write. -/
def StbWriteCall.comp : StbWriteCall → Nat
  | .png _ _ _ comp _ _ => comp
  | .jpg _ _ _ comp _ _ => comp
  | .bmp _ _ _ comp _ => comp
  | .tga _ _ _ comp _ => comp

/-- The JPEG quality argument, when the call has one. -/
def StbWriteCall.jpegQuality : StbWriteCall → Option Nat
  | .jpg _ _ _ _ _ quality => some quality
  | _ => none

/-- `SaveFile::PngSaveStrategy::Save`:
`stbi_write_png(path.c_str(), width, height, 1, img.data(), width)`. -/
def pngSaveStrategy (path : List Char) (img : List Nat) (width height : Nat) :
    StbWriteCall :=
  .png path width height 1 img width

/-- `SaveFile::JpegSaveStrategy::Save`:
`stbi_write_jpg(path.c_str(), width, height, 1, img.data(), 100)`. -/
def jpegSaveStrategy (path : List Char) (img : List Nat) (width height : Nat) :
    StbWriteCall :=
  .jpg path width height 1 img 100

/-- `SaveFile::BmpSaveStrategy::Save`:
`stbi_write_bmp(path.c_str(), width, height, 1, img.data())`. -/
def bmpSaveStrategy (path : List Char) (img : List Nat) (width height : Nat) :
    StbWriteCall :=
  .bmp path width height 1 img

/-- `SaveFile::TgaSaveStrategy::Save`:
`stbi_write_tga(path.c_str(), width, height, 1, img.data())`. -/
def tgaSaveStrategy (path : List Char) (img : List Nat) (width height : Nat) :
    StbWriteCall :=
  .tga path width height 1 img

/-- The `strategies` map populated in the `ImageConverter` constructor:
extension token → save strategy.  `std::unordered_map` lookup is exact
key match, so an association list with distinct keys models it. -/
def strategies : List (List Char × (List Char → List Nat → Nat → Nat → StbWriteCall)) :=
  [("png".toList, pngSaveStrategy),
   ("jpg".toList, jpegSaveStrategy),
   ("jpeg".toList, jpegSaveStrategy),
   ("bmp".toList, bmpSaveStrategy),
   ("tga".toList, tgaSaveStrategy)]

/-- `strategies.find(extension)` in `ImageConverter::SaveImage`. -/
def findStrategy (ext : List Char) :
    Option (List Char → List Nat → Nat → Nat → StbWriteCall) :=
  (strategies.find? (fun e => e.1 = ext)).map Prod.snd

/-- `ImageConverter::SaveImage`: resolve the extension, look the strategy up,
invoke it, or throw "Unsupported image format" on a lookup miss. -/
def saveImage (path : List Char) (img : List Nat) (width height : Nat) :
    Except ConvError StbWriteCall :=
  match getFileExtension path with
  | .error e => .error e
  | .ok extension =>
    match findStrategy extension with
    | some strat => .ok (strat path img width height)
    | none => .error .unsupportedFormat

/-- `ImageConverter::ConvertImage` with the external decoder abstracted:
`decoded` is what `stbi_load` produced (`none` = decode failure).  Returns
`none` on undefined behaviour inside the transform, otherwise the single
error or the final stb write call of the run. -/
def convertImage (decoded : Option (List Nat × Nat × Nat × Nat))
    (outputPath : List Char) (nThreads : Nat) :
    Option (Except ConvError StbWriteCall) :=
  match decoded with
  | none => some (.error .decodeError)
  | some (img, width, height, channels) =>
    match processImage img width height channels nThreads with
    | none => none
    | some gray => some (saveImage outputPath gray width height)

/-- `getD` through `List.set`: an in-bounds write is observed exactly at its
index, an out-of-bounds write is a no-op. -/
lemma getD_set (l : List Nat) (k q v : Nat) :
    (l.set k v).getD q 0 = if q = k ∧ k < l.length then v else l.getD q 0 := by
  by_cases hq : q < l.length
  · rw [List.getD_eq_getElem _ _ (by simpa using hq)]
    by_cases hqk : q = k
    · subst hqk
      simp [hq, List.getD_eq_getElem _ _ hq]
    · rw [List.getElem_set_ne (by omega), List.getD_eq_getElem _ _ hq]
      simp [hqk]
  · rw [List.getD_eq_default _ _ (by simpa using Nat.le_of_not_lt hq),
        List.getD_eq_default _ _ (Nat.le_of_not_lt hq)]
    have h : ¬(q = k ∧ k < l.length) := by
      rintro ⟨rfl, h'⟩; exact hq h'
    simp [h]

/-- A list of naturals all `< m + 1` sums to at most `m *` its length. -/
lemma sum_le_mul_length (l : List Nat) (m : Nat) (h : ∀ x ∈ l, x < m + 1) :
    l.sum ≤ m * l.length := by
  induction l with
  | nil => simp
  | cons x xs ih =>
    simp only [List.sum_cons, List.length_cons]
    have hx : x ≤ m := by
      have := h x (by simp)
      omega
    have hxs := ih (fun y hy => h y (by simp [hy]))
    calc x + xs.sum ≤ m + m * xs.length := by omega
      _ = m * (xs.length + 1) := by ring

/-- On unsigned-8-bit samples the `static_cast<unsigned char>` is the
identity: the truncated channel mean already fits in a byte. -/
lemma pixelGray_eq_mean (img : List Nat) (c p : Nat) (hc : 0 < c)
    (hbytes : ∀ x ∈ img, x < 256) :
    pixelGray img c p = ((img.drop (p * c)).take c).sum / c := by
  rw [pixelGray]
  apply Nat.mod_eq_of_lt
  rw [Nat.div_lt_iff_lt_mul hc]
  have hsub : ∀ x ∈ (img.drop (p * c)).take c, x < 256 := by
    intro x hx
    exact hbytes x (List.mem_of_mem_drop (List.mem_of_mem_take hx))
  have hsum := sum_le_mul_length ((img.drop (p * c)).take c) 255 hsub
  have hlen : ((img.drop (p * c)).take c).length ≤ c := by
    simp [List.length_take]
  have h255 : 255 * ((img.drop (p * c)).take c).length ≤ 255 * c :=
    Nat.mul_le_mul_left 255 hlen
  omega

/-- With `channels = 0` every chunk boundary collapses to byte offset 0. -/
lemma chunkEnd_zero_channels (pixels chunkSize nThreads i : Nat) :
    chunkEnd pixels 0 chunkSize nThreads i = 0 := by
  rw [chunkEnd]
  split <;> simp

/-- With `channels = 0` every chunk range is empty, so the thread loop
leaves the output buffer untouched (and no division by zero runs). -/
lemma runChunksAux_zero_channels (img : List Nat) (pixels chunkSize N : Nat) :
    ∀ (n i fuel : Nat) (out : List Nat), N - i = n → n ≤ fuel →
      runChunksAux img 0 pixels chunkSize N fuel i out = some out := by
  intro n
  induction n with
  | zero =>
    intro i fuel out hn hf
    rw [runChunksAux.eq_def, if_neg (by omega)]
  | succ n ih =>
    intro i fuel out hn hf
    obtain ⟨fuel', rfl⟩ : ∃ f, fuel = f + 1 := ⟨fuel - 1, by omega⟩
    rw [runChunksAux.eq_def, if_pos (by omega)]
    have h1 : chunkLoop img 0 (chunkEnd pixels 0 chunkSize N i)
        (chunkStart chunkSize 0 i) out = some out := by
      rw [chunkEnd_zero_channels, chunkLoop, chunkLoopAux.eq_def,
        if_neg (by omega)]
    rw [h1]
    exact ih (i + 1) fuel' out (by omega) (by omega)

/-- `ProcessImage` with `channels = 0`: the output is the value-initialised
all-zero buffer; no chunk loop body ever executes. -/
lemma processImage_zero_channels (img : List Nat) (w h N : Nat) (hN : 0 < N) :
    processImage img w h 0 N = some (List.replicate (w * h) 0) := by
  rw [processImage, if_neg (by omega), runChunks]
  exact runChunksAux_zero_channels img (w * h) (w * h / N) N (N - 0) 0 (N - 0)
    (List.replicate (w * h) 0) rfl (le_refl _)

/-- Chunks are laid out in increasing order: an earlier chunk ends no later
than a later chunk starts. -/
lemma chunkEnd_le_chunkStart (pixels channels chunkSize N i j : Nat)
    (hij : i < j) (hj : j < N) :
    chunkEnd pixels channels chunkSize N i ≤ chunkStart chunkSize channels j := by
  rw [chunkEnd, if_neg (by omega), chunkStart]
  exact Nat.mul_le_mul_right channels (Nat.mul_le_mul_right chunkSize (by omega))

/-- No chunk runs past the end of the buffer. -/
lemma chunkEnd_le (pixels channels N i : Nat) (hi : i < N) :
    chunkEnd pixels channels (pixels / N) N i ≤ pixels * channels := by
  rw [chunkEnd]
  split
  · exact le_refl _
  · apply Nat.mul_le_mul_right channels
    exact le_trans (Nat.mul_le_mul_right (pixels / N) (by omega))
      (Nat.mul_div_le pixels N)

/-- Every byte of the buffer lies in at least one chunk. -/
lemma chunk_coverage_exists (pixels channels N x : Nat) (hN : 1 ≤ N)
    (hx : x < pixels * channels) :
    ∃ i, i < N ∧ chunkStart (pixels / N) channels i ≤ x ∧
      x < chunkEnd pixels channels (pixels / N) N i := by
  have hc : 0 < channels := by
    rcases Nat.eq_zero_or_pos channels with h | h
    · subst h
      simp at hx
    · exact h
  by_cases hcs0 : pixels / N = 0
  · refine ⟨N - 1, by omega, ?_, ?_⟩
    · rw [chunkStart, hcs0]
      simp
    · rw [chunkEnd, if_pos rfl]
      exact hx
  · have hm0 : 0 < pixels / N * channels := Nat.mul_pos (Nat.pos_of_ne_zero hcs0) hc
    by_cases hkN : x / (pixels / N * channels) < N - 1
    · refine ⟨x / (pixels / N * channels), lt_of_lt_of_le hkN (Nat.sub_le N 1), ?_, ?_⟩
      · rw [chunkStart, Nat.mul_assoc]
        exact Nat.div_mul_le_self x (pixels / N * channels)
      · rw [chunkEnd, if_neg (by omega)]
        have hlt : x < (x / (pixels / N * channels) + 1) * (pixels / N * channels) :=
          (Nat.div_lt_iff_lt_mul hm0).mp (Nat.lt_succ_self _)
        rw [← Nat.mul_assoc] at hlt
        exact hlt
    · refine ⟨N - 1, by omega, ?_, ?_⟩
      · rw [chunkStart, Nat.mul_assoc]
        exact le_trans
          (Nat.mul_le_mul_right (pixels / N * channels) (by omega))
          (Nat.div_mul_le_self x (pixels / N * channels))
      · rw [chunkEnd, if_pos rfl]
        exact hx

/-- Invariant of the worker loop: running `processPixel` from byte index
`a * c` to byte index `b * c` fills output slots `[a, b)` with `pixelGray`
and leaves every other slot untouched. -/
lemma chunkLoopAux_spec (img : List Nat) (c : Nat) (hc : 0 < c) :
    ∀ (n a b fuel : Nat) (out : List Nat), b - a = n → a ≤ b →
      b * c ≤ img.length → b ≤ out.length → n ≤ fuel →
      ∃ out', chunkLoopAux img c (b * c) fuel (a * c) out = some out' ∧
        out'.length = out.length ∧
        ∀ q, out'.getD q 0 =
          if a ≤ q ∧ q < b then pixelGray img c q else out.getD q 0 := by
  intro n
  induction n with
  | zero =>
    intro a b fuel out hn hab hlen hsz hfuel
    have hab' : a = b := by omega
    subst hab'
    refine ⟨out, ?_, rfl, ?_⟩
    · rw [chunkLoopAux.eq_def]
      simp
    · intro q
      have h : ¬(a ≤ q ∧ q < a) := by omega
      simp [h]
  | succ n ih =>
    intro a b fuel out hn hab hlen hsz hfuel
    have ha : a < b := by omega
    obtain ⟨fuel', rfl⟩ : ∃ f, fuel = f + 1 := ⟨fuel - 1, by omega⟩
    have hlt : a * c < b * c := (Nat.mul_lt_mul_right hc).mpr ha
    have hdiv : a * c / c = a := Nat.mul_div_cancel a hc
    have hb1 : a * c + c ≤ img.length := by
      have h1 : (a + 1) * c ≤ b * c := Nat.mul_le_mul_right c (by omega)
      calc a * c + c = (a + 1) * c := by ring
        _ ≤ img.length := le_trans h1 hlen
    have hb2 : a * c / c < out.length := by
      rw [hdiv]; omega
    have hstep : a * c + c = (a + 1) * c := by ring
    set g : Nat := (((img.drop (a * c)).take c).sum / c) % 256 with hg
    have hgval : g = pixelGray img c a := rfl
    set out₁ : List Nat := out.set a g with hout₁
    obtain ⟨out', heq, hlen', hval'⟩ :=
      ih (a + 1) b fuel' out₁ (by omega) (by omega) hlen
        (by rw [hout₁, List.length_set]; exact hsz) (by omega)
    refine ⟨out', ?_, ?_, ?_⟩
    · rw [chunkLoopAux.eq_def]
      rw [if_pos hlt, if_pos hc, if_pos ⟨hb1, hb2⟩]
      rw [hdiv, hstep]
      exact heq
    · rw [hlen', hout₁, List.length_set]
    · intro q
      rw [hval' q]
      by_cases hq1 : a + 1 ≤ q ∧ q < b
      · have h : a ≤ q ∧ q < b := by omega
        simp [hq1, h]
      · rw [if_neg hq1, hout₁, getD_set]
        by_cases hqa : q = a
        · subst hqa
          rw [if_pos ⟨rfl, by omega⟩, if_pos ⟨le_refl _, ha⟩]
          exact hgval
        · have h2 : ¬(q = a ∧ a < out.length) := by
            rintro ⟨rfl, _⟩; exact hqa rfl
          have h3 : ¬(a ≤ q ∧ q < b) := by omega
          simp [h2, h3]

/-- The worker loop on the byte range `[a*c, b*c)` with real fuel. -/
lemma chunkLoop_spec (img : List Nat) (c : Nat) (hc : 0 < c) (a b : Nat)
    (out : List Nat) (hab : a ≤ b) (hlen : b * c ≤ img.length)
    (hsz : b ≤ out.length) :
    ∃ out', chunkLoop img c (b * c) (a * c) out = some out' ∧
      out'.length = out.length ∧
      ∀ q, out'.getD q 0 =
        if a ≤ q ∧ q < b then pixelGray img c q else out.getD q 0 := by
  have hfuel : b - a ≤ b * c - a * c := by
    have h1 : (b - a) * 1 ≤ (b - a) * c := Nat.mul_le_mul_left _ hc
    have h2 : (b - a) * c = b * c - a * c := by
      rw [Nat.sub_mul]
    omega
  exact chunkLoopAux_spec img c hc (b - a) a b (b * c - a * c) out rfl hab hlen hsz hfuel

/-- Invariant of the thread-spawning loop: starting at chunk `i`, the
remaining chunks fill exactly the output slots `[lowBound i, pixels)`. -/
lemma runChunksAux_spec (img : List Nat) (c pixels chunkSize N : Nat) (hc : 0 < c)
    (hcs : chunkSize = pixels / N) (hlen : img.length = pixels * c) :
    ∀ (n i fuel : Nat) (out : List Nat), N - i = n → n ≤ fuel → out.length = pixels →
      ∃ out', runChunksAux img c pixels chunkSize N fuel i out = some out' ∧
        out'.length = pixels ∧
        ∀ q, q < pixels → out'.getD q 0 =
          if lowBound pixels chunkSize N i ≤ q then pixelGray img c q
          else out.getD q 0 := by
  intro n
  induction n with
  | zero =>
    intro i fuel out hn hfuel hsz
    have hi : ¬ i < N := by omega
    refine ⟨out, ?_, hsz, ?_⟩
    · rw [runChunksAux.eq_def, if_neg hi]
    · intro q hq
      rw [lowBound, if_neg hi, if_neg (by omega)]
  | succ n ih =>
    intro i fuel out hn hfuel hsz
    have hi : i < N := by omega
    obtain ⟨fuel', rfl⟩ : ∃ f, fuel = f + 1 := ⟨fuel - 1, by omega⟩
    have hNcs : N * chunkSize ≤ pixels := by
      rw [hcs, Nat.mul_comm]
      exact Nat.div_mul_le_self pixels N
    have hics : i * chunkSize ≤ pixels :=
      le_trans (Nat.mul_le_mul_right chunkSize (le_of_lt hi)) hNcs
    rw [runChunksAux.eq_def, if_pos hi]
    by_cases hlast : i = N - 1
    · -- final chunk: runs to `pixels * c`
      rw [chunkEnd, if_pos hlast]
      obtain ⟨out₁, heq₁, hlen₁, hval₁⟩ :=
        chunkLoop_spec img c hc (i * chunkSize) pixels out hics
          (le_of_eq hlen.symm) (le_of_eq hsz.symm)
      rw [chunkStart, heq₁]
      obtain ⟨out', heq₂, hlen₂, hval₂⟩ :=
        ih (i + 1) fuel' out₁ (by omega) (by omega) (hlen₁.trans hsz)
      refine ⟨out', heq₂, hlen₂, ?_⟩
      intro q hq
      rw [hval₂ q hq, hval₁ q]
      have hl1 : lowBound pixels chunkSize N (i + 1) = pixels := by
        rw [lowBound, if_neg (by omega)]
      have hl0 : lowBound pixels chunkSize N i = i * chunkSize := by
        rw [lowBound, if_pos hi]
      rw [hl1, hl0, if_neg (by omega)]
      by_cases hle : i * chunkSize ≤ q
      · rw [if_pos ⟨hle, hq⟩, if_pos hle]
      · rw [if_neg (fun hcon => hle hcon.1), if_neg hle]
    · -- middle chunk: runs to `(i + 1) * chunkSize * c`
      rw [chunkEnd, if_neg hlast]
      have hi1 : i + 1 < N := by omega
      have hi1cs : (i + 1) * chunkSize ≤ pixels :=
        le_trans (Nat.mul_le_mul_right chunkSize hi1.le) hNcs
      obtain ⟨out₁, heq₁, hlen₁, hval₁⟩ :=
        chunkLoop_spec img c hc (i * chunkSize) ((i + 1) * chunkSize) out
          (Nat.mul_le_mul_right chunkSize (by omega))
          (by rw [hlen]; exact Nat.mul_le_mul_right c hi1cs)
          (by rw [hsz]; exact hi1cs)
      rw [chunkStart, heq₁]
      obtain ⟨out', heq₂, hlen₂, hval₂⟩ :=
        ih (i + 1) fuel' out₁ (by omega) (by omega) (hlen₁.trans hsz)
      refine ⟨out', heq₂, hlen₂, ?_⟩
      intro q hq
      rw [hval₂ q hq, hval₁ q]
      have hl1 : lowBound pixels chunkSize N (i + 1) = (i + 1) * chunkSize := by
        rw [lowBound, if_pos hi1]
      have hl0 : lowBound pixels chunkSize N i = i * chunkSize := by
        rw [lowBound, if_pos hi]
      rw [hl1, hl0]
      have hmono : i * chunkSize ≤ (i + 1) * chunkSize :=
        Nat.mul_le_mul_right chunkSize (by omega)
      by_cases hb : (i + 1) * chunkSize ≤ q
      · rw [if_pos hb, if_pos (le_trans hmono hb)]
      · rw [if_neg hb]
        by_cases hle : i * chunkSize ≤ q
        · rw [if_pos ⟨hle, Nat.lt_of_not_le hb⟩, if_pos hle]
        · rw [if_neg (fun hcon => hle hcon.1), if_neg hle]

/-- `ProcessImage` computes exactly one integer-truncated channel mean per
pixel: the whole-program specification of the grayscale engine. -/
lemma processImage_spec (img : List Nat) (w h c N : Nat) (hc : 0 < c)
    (hN : 0 < N) (hlen : img.length = w * h * c) :
    processImage img w h c N = some (grayList img w h c) := by
  rw [processImage, if_neg (by omega), runChunks]
  obtain ⟨out', heq, hlen', hval⟩ :=
    runChunksAux_spec img c (w * h) (w * h / N) N hc rfl hlen
      (N - 0) 0 (N - 0) (List.replicate (w * h) 0) rfl (le_refl _)
      (List.length_replicate _ _)
  rw [heq]
  have hgl : (grayList img w h c).length = w * h := by
    rw [grayList, List.length_map, List.length_range]
  congr 1
  apply List.ext_getElem (by rw [hlen', hgl])
  intro q h1 h2
  have hq : q < w * h := by rwa [hlen'] at h1
  have hv := hval q hq
  rw [lowBound, if_pos hN, Nat.zero_mul, if_pos (Nat.zero_le q)] at hv
  rw [← List.getD_eq_getElem out' 0 h1, hv]
  simp [grayList]


/-- `find_last_of` misses exactly when the path contains no dot. -/
lemma findLastDot_eq_none_iff : ∀ s : List Char, findLastDot s = none ↔ '.' ∉ s := by
  intro s
  induction s with
  | nil => simp [findLastDot]
  | cons ch rest ih =>
    rw [findLastDot]
    cases h : findLastDot rest with
    | some j =>
      have hmem : '.' ∈ rest := by
        by_contra hno
        rw [ih.mpr hno] at h
        exact Option.noConfusion h
      simp [List.mem_cons, hmem]
    | none =>
      have hno : '.' ∉ rest := ih.mp h
      by_cases hch : ch = '.'
      · subst hch
        simp
      · rw [if_neg hch]
        constructor
        · intro _ hmem'
          rcases List.mem_cons.mp hmem' with h1 | h1
          · exact hch h1.symm
          · exact hno h1
        · intro _
          rfl

/-- Decomposition at the last dot: `find_last_of` returns the index of a
dot that no later dot follows. -/
lemma findLastDot_decomp : ∀ (s : List Char) (i : Nat), findLastDot s = some i →
    s.take i ++ '.' :: s.drop (i + 1) = s ∧ '.' ∉ s.drop (i + 1) := by
  intro s
  induction s with
  | nil =>
    intro i h
    exact Option.noConfusion h
  | cons ch rest ih =>
    intro i h
    rw [findLastDot] at h
    cases hr : findLastDot rest with
    | some j =>
      rw [hr] at h
      injection h with h'
      subst h'
      obtain ⟨hdec, hno⟩ := ih j hr
      constructor
      · simp only [List.take_succ_cons, List.drop_succ_cons, List.cons_append]
        exact congrArg (ch :: ·) hdec
      · simpa using hno
    | none =>
      rw [hr] at h
      by_cases hch : ch = '.'
      · rw [if_pos hch] at h
        injection h with h'
        subst h'
        subst hch
        constructor
        · simp
        · simpa using (findLastDot_eq_none_iff rest).mp hr
      · rw [if_neg hch] at h
        exact Option.noConfusion h

/-- A path that ends in a dot resolves to that final dot. -/
lemma findLastDot_append_dot : ∀ t : List Char, findLastDot (t ++ ['.']) = some t.length := by
  intro t
  induction t with
  | nil => rfl
  | cons ch t ih =>
    rw [List.cons_append, findLastDot, ih]
    simp


/-- C1: for every input buffer of length `width*height*channels` with
`channels ≥ 1` (unsigned 8-bit samples) and any positive thread count, the
grayscale transform produces a buffer of length `width*height` whose sample
at flattened pixel index `p` is the integer-truncated arithmetic mean of the
`channels` consecutive input samples starting at `p*channels`. -/
theorem grayscale_mean_correct (img : List Nat) (width height channels N : Nat)
    (hc : 1 ≤ channels) (hN : 1 ≤ N)
    (hlen : img.length = width * height * channels)
    (hbytes : ∀ x ∈ img, x < 256) :
    ∃ out, processImage img width height channels N = some out ∧
      out.length = width * height ∧
      ∀ p, p < width * height →
        out.getD p 0 = ((img.drop (p * channels)).take channels).sum / channels := by
  refine ⟨grayList img width height channels,
    processImage_spec img width height channels N hc hN hlen, ?_, ?_⟩
  · rw [grayList, List.length_map, List.length_range]
  · intro p hp
    rw [grayList, List.getD_eq_getElem _ _ (by simpa using hp)]
    simp only [List.getElem_map, List.getElem_range]
    exact pixelGray_eq_mean img channels p hc hbytes

/-- Witness for C1 at the spec's example pixel `(10, 20, 30)`, `channels = 3`. -/
theorem grayscale_mean_correct_witness :
    (1 ≤ 3 ∧ 1 ≤ 1 ∧ ([10, 20, 30] : List Nat).length = 1 * 1 * 3 ∧
      ∀ x ∈ ([10, 20, 30] : List Nat), x < 256) ∧
    ∃ out, BWConv.processImage [10, 20, 30] 1 1 3 1 = some out ∧
      out.length = 1 * 1 ∧
      ∀ p, p < 1 * 1 →
        out.getD p 0 = ((([10, 20, 30] : List Nat).drop (p * 3)).take 3).sum / 3 :=
  ⟨⟨by decide, by decide, by decide, by decide⟩,
    grayscale_mean_correct [10, 20, 30] 1 1 3 1 (by decide) (by decide)
      (by decide) (by decide)⟩

/-- C2: for every `width`, `height`, `channels` and thread count `N ≥ 1` the
chunk layout (`chunkSize = width*height/N` pixels, chunk `i` covering
`[i*chunkSize*channels, (i+1)*chunkSize*channels)` and the final chunk
extending to `width*height*channels`) covers `[0, width*height*channels)`
exactly once; when `width*height < N` every chunk but the last is empty and
the transform still completes without error on a well-formed buffer. -/
theorem chunk_partition_exact (width height channels N : Nat) (hN : 1 ≤ N) :
    (∀ x, x < width * height * channels →
      ∃! i, i < N ∧
        chunkStart (width * height / N) channels i ≤ x ∧
        x < chunkEnd (width * height) channels (width * height / N) N i) ∧
    (∀ i, i < N →
      chunkEnd (width * height) channels (width * height / N) N i ≤
        width * height * channels) ∧
    (width * height < N → ∀ i, i < N - 1 →
      chunkStart (width * height / N) channels i =
      chunkEnd (width * height) channels (width * height / N) N i) ∧
    (∀ img : List Nat, 1 ≤ channels →
      img.length = width * height * channels →
      ∃ out, processImage img width height channels N = some out) := by
  refine ⟨?_, ?_, ?_, ?_⟩
  · intro x hx
    obtain ⟨i, hi, h1, h2⟩ := chunk_coverage_exists (width * height) channels N x hN hx
    refine ⟨i, ⟨hi, h1, h2⟩, ?_⟩
    intro j ⟨hj, hj1, hj2⟩
    by_contra hne
    rcases Nat.lt_or_ge j i with hlt | hge
    · have := chunkEnd_le_chunkStart (width * height) channels
        (width * height / N) N j i hlt hi
      omega
    · have hlt : i < j := by omega
      have := chunkEnd_le_chunkStart (width * height) channels
        (width * height / N) N i j hlt hj
      omega
  · intro i hi
    exact chunkEnd_le (width * height) channels N i hi
  · intro hsmall i hi
    have hcs : width * height / N = 0 := Nat.div_eq_of_lt hsmall
    rw [chunkStart, chunkEnd, if_neg (by omega), hcs]
    ring
  · intro img hc hlen
    exact ⟨grayList img width height channels,
      processImage_spec img width height channels N hc hN hlen⟩

/-- Witness for C2 with a 3×1 image, 2 channels, N = 2 threads. -/
theorem chunk_partition_exact_witness :
    (1 ≤ 2) ∧
    ((∀ x, x < 3 * 1 * 2 →
      ∃! i, i < 2 ∧ chunkStart (3 * 1 / 2) 2 i ≤ x ∧
        x < chunkEnd (3 * 1) 2 (3 * 1 / 2) 2 i) ∧
    (∀ i, i < 2 → chunkEnd (3 * 1) 2 (3 * 1 / 2) 2 i ≤ 3 * 1 * 2) ∧
    (3 * 1 < 2 → ∀ i, i < 2 - 1 →
      chunkStart (3 * 1 / 2) 2 i = chunkEnd (3 * 1) 2 (3 * 1 / 2) 2 i) ∧
    (∀ img : List Nat, 1 ≤ 2 → img.length = 3 * 1 * 2 →
      ∃ out, processImage img 3 1 2 2 = some out)) :=
  ⟨by decide, chunk_partition_exact 3 1 2 2 (by decide)⟩

/-- C3: on identical well-formed input the transform's result does not
depend on the thread count: any two positive counts give byte-identical
output. -/
theorem transform_thread_count_independent (img : List Nat)
    (width height channels N₁ N₂ : Nat) (h1 : 1 ≤ N₁) (h2 : 1 ≤ N₂)
    (hc : 1 ≤ channels) (hlen : img.length = width * height * channels) :
    processImage img width height channels N₁ =
    processImage img width height channels N₂ := by
  rw [processImage_spec img width height channels N₁ hc h1 hlen,
      processImage_spec img width height channels N₂ hc h2 hlen]

/-- Witness for C3: N = 1 versus N = 8 on a 2×1 RGB image. -/
theorem transform_thread_count_independent_witness :
    (1 ≤ 1 ∧ 1 ≤ 8 ∧ 1 ≤ 3 ∧
      ([10, 20, 30, 40, 50, 60] : List Nat).length = 2 * 1 * 3) ∧
    processImage [10, 20, 30, 40, 50, 60] 2 1 3 1 =
      processImage [10, 20, 30, 40, 50, 60] 2 1 3 8 :=
  ⟨⟨by decide, by decide, by decide, by decide⟩,
    transform_thread_count_independent [10, 20, 30, 40, 50, 60] 2 1 3 1 8
      (by decide) (by decide) (by decide) (by decide)⟩

/-- C4 counterexample: with `channels = 0` the transform does NOT fail: on
an empty buffer declared 2×1 with 0 channels (and one thread) it returns
normally with the all-zero output buffer, so no error is raised. -/
theorem channels_zero_no_error_counterexample :
    processImage [] 2 1 0 1 = some [0, 0] ∧ processImage [] 2 1 0 1 ≠ none :=
  ⟨rfl, fun h => Option.noConfusion h⟩

/-- C4 (amended): with `channels = 0` every chunk byte range is empty, so
the loop body — and with it the division `grayScale /= channels` — never
executes; the transform completes without error or division by zero, but it
silently returns the all-zero buffer of length `width*height` instead of
failing fast. -/
theorem channels_zero_returns_zero_buffer (img : List Nat) (width height N : Nat)
    (hN : 1 ≤ N) :
    processImage img width height 0 N = some (List.replicate (width * height) 0) :=
  processImage_zero_channels img width height N hN

/-- Witness for the amended C4. -/
theorem channels_zero_returns_zero_buffer_witness :
    (1 ≤ 1) ∧ processImage [] 2 1 0 1 = some (List.replicate (2 * 1) 0) :=
  ⟨by decide, channels_zero_returns_zero_buffer [] 2 1 1 (by decide)⟩

/-- C5: when `std::thread::hardware_concurrency()` reports 0 the code has no
fallback to 1: `chunkSize = pixels / nThreads` divides by zero (undefined
behaviour) even on a trivially small valid image, instead of completing
correctly with one chunk. -/
theorem hw_concurrency_zero_is_undefined :
    processImage [5] 1 1 1 0 = none := rfl


/-- C6: extension resolution returns the lowercased final segment after the
last dot (the unique suffix preceded by a dot and containing no further
dot), and a dotless path fails with the extension error rather than
producing an empty token; including the spec's examples `photo.PNG → png`,
`archive.tar.gz → gz`, `noext → error`. -/
theorem extension_resolution_correct :
    (∀ s : List Char, '.' ∈ s →
      ∃ pre seg, s = pre ++ '.' :: seg ∧ '.' ∉ seg ∧
        getFileExtension s = .ok (seg.map toLowerAscii)) ∧
    (∀ s : List Char, '.' ∉ s →
      getFileExtension s = .error .extensionError) ∧
    getFileExtension "photo.PNG".toList = .ok "png".toList ∧
    getFileExtension "archive.tar.gz".toList = .ok "gz".toList ∧
    getFileExtension "noext".toList = .error .extensionError := by
  refine ⟨?_, ?_, rfl, rfl, rfl⟩
  · intro s hmem
    cases h : findLastDot s with
    | none =>
      exact absurd ((findLastDot_eq_none_iff s).mp h) (by simp [hmem])
    | some i =>
      obtain ⟨hdec, hno⟩ := findLastDot_decomp s i h
      refine ⟨s.take i, s.drop (i + 1), hdec.symm, hno, ?_⟩
      simp only [getFileExtension, h]
  · intro s hno
    simp only [getFileExtension, (findLastDot_eq_none_iff s).mpr hno]

/-- Witness for C6 at `photo.PNG`. -/
theorem extension_resolution_correct_witness :
    ('.' ∈ "photo.PNG".toList) ∧
    ∃ pre seg, "photo.PNG".toList = pre ++ '.' :: seg ∧ '.' ∉ seg ∧
      getFileExtension "photo.PNG".toList = .ok (seg.map toLowerAscii) :=
  ⟨by decide, extension_resolution_correct.1 "photo.PNG".toList (by decide)⟩

/-- C7: a resolved token outside the exact set {png, jpg, jpeg, bmp, tga}
makes SaveImage throw the unsupported-format error: the registry lookup
misses, no strategy is invoked and no stb write call is produced — there is
no silent default; `out.gif` concretely. -/
theorem unsupported_token_rejected :
    (∀ (path : List Char) (img : List Nat) (w h : Nat) (ext : List Char),
      getFileExtension path = .ok ext →
      ext ∉ ["png".toList, "jpg".toList, "jpeg".toList, "bmp".toList, "tga".toList] →
      saveImage path img w h = .error .unsupportedFormat) ∧
    (∀ (img : List Nat) (w h : Nat),
      saveImage "out.gif".toList img w h = .error .unsupportedFormat) := by
  constructor
  · intro path img w h ext hext hnot
    have hfind : findStrategy ext = none := by
      rw [findStrategy, Option.map_eq_none']
      rw [List.find?_eq_none]
      intro e he
      simp only [strategies, List.mem_cons, List.not_mem_nil, or_false] at he
      rcases he with rfl | rfl | rfl | rfl | rfl <;>
        · simp only [decide_eq_true_eq]
          intro hk
          exact hnot (by rw [← hk]; simp)
    simp only [saveImage, hext, hfind]
  · intro img w h
    rfl

/-- Witness for C7 at `out.gif` with token `gif`. -/
theorem unsupported_token_rejected_witness :
    (getFileExtension "out.gif".toList = .ok "gif".toList ∧
      "gif".toList ∉
        ["png".toList, "jpg".toList, "jpeg".toList, "bmp".toList, "tga".toList]) ∧
    saveImage "out.gif".toList [20] 1 1 = .error .unsupportedFormat :=
  ⟨⟨rfl, by decide⟩,
    unsupported_token_rejected.1 "out.gif".toList [20] 1 1 "gif".toList rfl
      (by decide)⟩

/-- C8: when decoding fails, ConvertImage yields exactly the decode error —
for every output path (even one that would fail extension resolution or the
format lookup) and every thread count (even 0, where the transform would be
undefined behaviour if it ran): none of the later steps runs and a single
error propagates to the caller. -/
theorem decode_failure_short_circuits :
    ∀ (outputPath : List Char) (nThreads : Nat),
      convertImage none outputPath nThreads = some (.error .decodeError) :=
  fun _ _ => rfl

/-- C9: every registered encoder variant passes the fixed channel count 1 to
its stb write routine, whatever the arguments, and the JPEG variant always
passes the constant quality 100. -/
theorem encoder_channels_one_quality_100 :
    (∀ e ∈ strategies, ∀ (path : List Char) (img : List Nat) (w h : Nat),
      (e.2 path img w h).comp = 1) ∧
    (∀ (path : List Char) (img : List Nat) (w h : Nat),
      (jpegSaveStrategy path img w h).jpegQuality = some 100) := by
  constructor
  · intro e he path img w h
    simp only [strategies, List.mem_cons, List.not_mem_nil, or_false] at he
    rcases he with rfl | rfl | rfl | rfl | rfl <;> rfl
  · intro path img w h
    rfl

/-- Witness for C9 at the PNG entry and a concrete JPEG call. -/
theorem encoder_channels_one_quality_100_witness :
    (("png".toList, pngSaveStrategy) ∈ strategies) ∧
    ((("png".toList, pngSaveStrategy).2 "x.png".toList [20] 1 1).comp = 1) ∧
    ((jpegSaveStrategy "x.jpg".toList [20] 1 1).jpegQuality = some 100) :=
  ⟨by simp [strategies],
    encoder_channels_one_quality_100.1 ("png".toList, pngSaveStrategy)
      (by simp [strategies]) "x.png".toList [20] 1 1,
    encoder_channels_one_quality_100.2 "x.jpg".toList [20] 1 1⟩

/-- C10: a path that contains a dot but ends with it resolves successfully
to the EMPTY token, so saving fails with the unsupported-format error from
the registry miss, not with the missing-extension error. -/
theorem trailing_dot_empty_token (s : List Char) (hdot : ∃ t, s = t ++ ['.']) :
    getFileExtension s = .ok [] ∧
    ∀ (img : List Nat) (w h : Nat),
      saveImage s img w h = .error .unsupportedFormat ∧
      saveImage s img w h ≠ .error .extensionError := by
  obtain ⟨t, rfl⟩ := hdot
  have hdrop : (t ++ ['.']).drop (t.length + 1) = [] := by
    apply List.drop_eq_nil_of_le
    simp
  have hext : getFileExtension (t ++ ['.']) = .ok [] := by
    simp only [getFileExtension, findLastDot_append_dot, hdrop, List.map_nil]
  refine ⟨hext, ?_⟩
  intro img w h
  have hs : saveImage (t ++ ['.']) img w h = .error .unsupportedFormat := by
    simp only [saveImage, hext]
    rfl
  refine ⟨hs, ?_⟩
  rw [hs]
  intro hcon
  injection hcon with h'
  exact ConvError.noConfusion h'

/-- Witness for C10 at `file.`. -/
theorem trailing_dot_empty_token_witness :
    (∃ t, "file.".toList = t ++ ['.']) ∧
    (getFileExtension "file.".toList = .ok [] ∧
      ∀ (img : List Nat) (w h : Nat),
        saveImage "file.".toList img w h = .error .unsupportedFormat ∧
        saveImage "file.".toList img w h ≠ .error .extensionError) :=
  ⟨⟨"file".toList, rfl⟩,
    trailing_dot_empty_token "file.".toList ⟨"file".toList, rfl⟩⟩

end BWConv

-- Concrete evaluations of the embedding on the spec's worked examples.
example : BWConv.processImage [10, 20, 30] 1 1 3 1 = some [20] := by decide
example : BWConv.processImage [10, 20, 30, 40, 50, 60] 2 1 3 1 = some [20, 50] := by decide
example : BWConv.processImage [10, 20, 30, 40, 50, 60] 2 1 3 8 = some [20, 50] := by decide
example : BWConv.processImage [] 2 1 0 1 = some [0, 0] := by decide
example : BWConv.processImage [5] 1 1 1 0 = none := by decide
